import Mathlib

/-!
Verification of the electric field simulator core (main.c).

The numerical parts of the program (field-line tracing, ground picking) are
embedded over the exact reals, idealizing IEEE float arithmetic; the discrete
parts (color fixed-point blend, charge store, input buffer, UI state machine)
are embedded with exact integer and rational arithmetic.
-/

namespace EFS

/-- 3D vector, mirroring raylib Vector3 with components x, y, z. -/
abbrev V3 := ℝ × ℝ × ℝ

/-- Squared Euclidean norm of a vector, as computed componentwise in main.c. -/
def normSq (v : V3) : ℝ := v.1 ^ 2 + v.2.1 ^ 2 + v.2.2 ^ 2

/-- Componentwise dot product, used for the Cauchy-Schwarz helper lemmas. -/
def dot (u v : V3) : ℝ := u.1 * v.1 + u.2.1 * v.2.1 + u.2.2 * v.2.2

/-- A point charge: struct Charge { Vector3 position; float value; }. -/
structure Charge where
  position : V3
  value : ℝ

/-- raymath Clamp: result = (value < min) ? min : value; then cap at max. -/
noncomputable def Clamp (value mn mx : ℝ) : ℝ :=
  if mx < (if value < mn then mn else value) then mx
  else (if value < mn then mn else value)

/-- A mouse ray: raylib Ray { Vector3 position; Vector3 direction; }. -/
structure RayT where
  position : V3
  direction : V3

/-- GetGroundIntersection from main.c: reject near-horizontal rays and
rays whose plane hit lies behind the origin, else intersect y = 0 and clamp
x and z to the 50-unit square. -/
noncomputable def GetGroundIntersection (ray : RayT) : Option V3 :=
  if |ray.direction.2.1| < 0.001 then none
  else if -ray.position.2.1 / ray.direction.2.1 < 0 then none
  else
    some (Clamp (ray.position.1 + ray.direction.1 * (-ray.position.2.1 / ray.direction.2.1))
            (-50) 50,
          0,
          Clamp (ray.position.2.2 + ray.direction.2.2 * (-ray.position.2.1 / ray.direction.2.1))
            (-50) 50)

/-- raylib Color with four 8-bit channels modelled as naturals below 256. -/
structure Color where
  r : ℕ
  g : ℕ
  b : ℕ
  a : ℕ

/-- One channel of the fixed-point blend in CustomColorLerp:
(c1 * invAmount + c2 * iAmount) >> 8, then the unsigned char cast. -/
def lerpChannel (x y iAmount : ℕ) : ℕ := (x * (256 - iAmount) + y * iAmount) / 256 % 256

/-- CustomColorLerp from main.c: exact endpoints at amount <= 0 and
amount >= 1, otherwise a fixed-point per-channel interpolation with the
alpha channel set to 255. The float amount is modelled as an exact rational. -/
def CustomColorLerp (c1 c2 : Color) (amount : ℚ) : Color :=
  if amount ≤ 0 then c1
  else if 1 ≤ amount then c2
  else
    let iAmount : ℕ := (⌊amount * 256⌋).toNat
    ⟨lerpChannel c1.r c2.r iAmount,
     lerpChannel c1.g c2.g iAmount,
     lerpChannel c1.b c2.b iAmount,
     255⟩

/-- Removal by compaction: for (k = i; k < n - 1; k++) a[k] = a[k+1]; n--. -/
def removeAt : List Charge → ℕ → List Charge
  | [], _ => []
  | _ :: xs, 0 => xs
  | x :: xs, i + 1 => x :: removeAt xs i

/-- The 16-byte chargeInput buffer together with inputLength. -/
structure InputBuf where
  arr : ℕ → ℕ
  len : ℕ

/-- Keys accepted while typing: (key >= 48 and key <= 57) or 46 or 45,
the codepoints of the digits, the dot and the minus sign. -/
def keyAllowed (key : ℕ) : Prop := (48 ≤ key ∧ key ≤ 57) ∨ key = 46 ∨ key = 45

instance (key : ℕ) : Decidable (keyAllowed key) := by
  unfold keyAllowed; infer_instance

/-- Key append from main.c: if the key is a digit, dot or minus and
inputLength < 10, write it at inputLength, increment, and re-terminate. -/
def appendKey (b : InputBuf) (key : ℕ) : InputBuf :=
  if keyAllowed key ∧ b.len < 10 then
    ⟨Function.update (Function.update b.arr b.len key) (b.len + 1) 0, b.len + 1⟩
  else b

/-- Backspace from main.c: chargeInput[--inputLength] = 0 when nonempty. -/
def backspaceKey (b : InputBuf) : InputBuf :=
  if 0 < b.len then ⟨Function.update b.arr (b.len - 1) 0, b.len - 1⟩ else b

/-- Buffer reset: chargeInput[0] = 0; inputLength = 0. -/
def resetBuf (b : InputBuf) : InputBuf := ⟨Function.update b.arr 0 0, 0⟩

/-- Buffer well-formedness: length at most 10, null terminator at index
length, and every stored character is an accepted key. -/
def BufWF (b : InputBuf) : Prop :=
  b.len ≤ 10 ∧ b.arr b.len = 0 ∧ ∀ j, j < b.len → keyAllowed (b.arr j)

/-- The interaction state of the editing controller: the charge array,
selectedCharge, isTyping and the text buffer. -/
structure UIState where
  charges : List Charge
  selected : ℤ
  isTyping : Bool
  input : InputBuf

/-- The selection invariant claimed by the spec: selectedCharge is -1 or a
valid index into the charge sequence. -/
def SelInvariant (st : UIState) : Prop :=
  st.selected = -1 ∨ (0 ≤ st.selected ∧ st.selected < st.charges.length)

/-- deleteIndex scan of the right-click handler: first index below the
charge count whose screen circle contains the mouse (hit test external). -/
def findDelete (n : ℕ) (hitTest : ℕ → Bool) : Option ℕ := (List.range n).find? hitTest

/-- The right-click delete handler of main.c: when the scan hits a charge,
remove it by compaction and stop typing; selectedCharge is not touched. -/
def rightClickDelete (st : UIState) (hitTest : ℕ → Bool) : UIState :=
  match findDelete st.charges.length hitTest with
  | none => st
  | some i => { st with charges := removeAt st.charges i, isTyping := false }

/-- selectedCharge = -1, the first action of the empty-space click. -/
def deselect (st : UIState) : UIState := { st with selected := -1 }

/-- The left-click-on-empty-space branch of main.c (NEW LOGIC block):
deselect; when already typing with a nonempty buffer, parse (the parsed
value is the val argument) and place when nonzero and the ground ray hits,
subject to capacity; otherwise start typing with a fresh buffer. -/
noncomputable def emptySpaceClick (st : UIState) (val : ℝ) (ray : RayT) : UIState :=
  if (deselect st).isTyping = true ∧ 0 < (deselect st).input.len then
    if val ≠ 0 then
      match GetGroundIntersection ray with
      | some pos =>
          { deselect st with
            charges :=
              if (deselect st).charges.length < 100 then
                (deselect st).charges ++ [⟨pos, val⟩]
              else (deselect st).charges,
            isTyping := false,
            input := resetBuf (deselect st).input }
      | none => deselect st
    else deselect st
  else { deselect st with isTyping := true, input := resetBuf (deselect st).input }

/-- The click handled inside the typing block of main.c: when below
capacity and the buffer is nonempty, place the parsed charge when nonzero
and the ground ray hits; in all cases stop typing. -/
noncomputable def typingClick (st : UIState) (val : ℝ) (ray : RayT) : UIState :=
  { (if st.charges.length < 100 ∧ 0 < st.input.len then
       if val ≠ 0 then
         match GetGroundIntersection ray with
         | some pos => { st with charges := st.charges ++ [⟨pos, val⟩] }
         | none => st
       else st
     else st) with
    isTyping := false }

/-- Coulomb field superposition at a point: for each charge k, with
r = |p - position[k]|, accumulate (value[k] / r^3) * (p - position[k]). -/
noncomputable def fieldAt (cs : List Charge) (p : V3) : V3 :=
  cs.foldl
    (fun acc c =>
      let r := Real.sqrt (normSq (p - c.position))
      acc + (c.value * (1 / r) ^ 3) • (p - c.position)) 0

/-- The capture test of the inner loop: some charge lies within squared
distance 0.04 of the point and is negative. -/
def HitSink (cs : List Charge) (p : V3) : Prop :=
  ∃ c ∈ cs, normSq (p - c.position) < 0.04 ∧ c.value < 0

/-- Minimum distance from the point to a charge of the else-branch (value
not positive), starting from 10000, as tracked by the inner loop. -/
noncomputable def minDistToNeg (cs : List Charge) (p : V3) : ℝ :=
  cs.foldl
    (fun m c =>
      if 0 < c.value then m else min m (Real.sqrt (normSq (p - c.position)))) 10000

/-- Minimum distance from the point to a positive charge, from 10000. -/
noncomputable def minDistToPos (cs : List Charge) (p : V3) : ℝ :=
  cs.foldl
    (fun m c =>
      if 0 < c.value then min m (Real.sqrt (normSq (p - c.position))) else m) 10000

/-- One Euler step: normalize the summed field and advance the point by
the fixed step size 0.05 along it. -/
noncomputable def stepPoint (cs : List Charge) (p : V3) : V3 :=
  p + (0.05 * (1 / Real.sqrt (normSq (fieldAt cs p)))) • fieldAt cs p

/-- The color-mix factor: minDistToPos / (minDistToPos + minDistToNeg +
0.001), raised to the fixed exponent 0.7. -/
noncomputable def mixAt (cs : List Charge) (p : V3) : ℝ :=
  (minDistToPos cs p / (minDistToPos cs p + minDistToNeg cs p + 0.001)) ^ (0.7 : ℝ)

/-- The per-segment alpha of main.c: 1.0, replaced by
(fieldLineSteps - step) / 50 when step > fieldLineSteps - 50, then halved
when the minimum distance to a negative charge exceeds 20. -/
noncomputable def alphaAt (ms s : ℕ) (dneg : ℝ) : ℝ :=
  if 20 < dneg then
    (if (ms : ℤ) - 50 < (s : ℤ) then ((ms : ℝ) - (s : ℝ)) / 50 else 1) * 0.5
  else
    (if (ms : ℤ) - 50 < (s : ℤ) then ((ms : ℝ) - (s : ℝ)) / 50 else 1)

/-- A field-line segment emitted by the tracer: endpoints plus the mix
factor and alpha computed at the pre-step point. -/
structure Segment where
  a : V3
  b : V3
  mix : ℝ
  alpha : ℝ

/-- The segment emitted at a given step, from the pre-step point p to the
post-step point q. -/
noncomputable def mkSeg (cs : List Charge) (ms s : ℕ) (p q : V3) : Segment :=
  ⟨p, q, mixAt cs p, alphaAt ms s (minDistToNeg cs p)⟩

/-- Terminal states of the per-seed integration loop. -/
inductive TraceOutcome where
  | captured
  | vanished
  | escaped
  | exhausted
deriving DecidableEq

/-- Result of tracing one seed: the emitted segments, the points at which
the charge-summation loop ran (where the divisions happen), and the
terminal state. -/
structure TraceResult where
  segs : List Segment
  visited : List V3
  outcome : TraceOutcome

open Classical in
/-- The per-seed integration loop of main.c, from step s with current
point p: capture test, field-vanish test, Euler step, escape test, emit. -/
noncomputable def traceFrom (cs : List Charge) (ms s : ℕ) (p : V3) : TraceResult :=
  if ms ≤ s then ⟨[], [], .exhausted⟩
  else if HitSink cs p then ⟨[], [p], .captured⟩
  else if normSq (fieldAt cs p) < 1e-12 then ⟨[], [p], .vanished⟩
  else if 2500 < normSq (stepPoint cs p) then ⟨[], [p], .escaped⟩
  else
    ⟨mkSeg cs ms s p (stepPoint cs p) :: (traceFrom cs ms (s + 1) (stepPoint cs p)).segs,
     p :: (traceFrom cs ms (s + 1) (stepPoint cs p)).visited,
     (traceFrom cs ms (s + 1) (stepPoint cs p)).outcome⟩
termination_by ms - s
decreasing_by omega

/-- A seed point on the latitude/longitude grid: the charge center offset
by startRadius 0.1 in direction (sin theta cos phi, sin theta sin phi,
cos theta), with theta = pi t / (3 res) and phi = 2 pi p / (4 res). -/
noncomputable def seedPoint (c : Charge) (res t p : ℕ) : V3 :=
  (c.position.1 +
     0.1 * Real.sin (Real.pi * t / (3 * res)) * Real.cos (2 * Real.pi * p / (4 * res)),
   c.position.2.1 +
     0.1 * Real.sin (Real.pi * t / (3 * res)) * Real.sin (2 * Real.pi * p / (4 * res)),
   c.position.2.2 + 0.1 * Real.cos (Real.pi * t / (3 * res)))

/-- The loop grid of the seeding code: t runs from 1 to 3 res - 1 and p
runs from 0 to 4 res - 1. -/
def seedGrid (res : ℕ) : List (ℕ × ℕ) :=
  (List.range' 1 (3 * res - 1)).flatMap fun t =>
    (List.range (4 * res)).map fun p => (t, p)

/-- All seed points placed around one charge. -/
noncomputable def seeds (res : ℕ) (c : Charge) : List V3 :=
  (seedGrid res).map fun tp => seedPoint c res tp.1 tp.2

open Classical in
/-- The charges the tracer seeds from: value <= 0 is skipped. -/
noncomputable def tracedCharges : List Charge → List Charge
  | [] => []
  | c :: cs => if c.value ≤ 0 then tracedCharges cs else c :: tracedCharges cs

/-- All seeds of one frame: the seeds of every traced (positive) charge. -/
noncomputable def frameSeeds (cs : List Charge) (res : ℕ) : List V3 :=
  (tracedCharges cs).flatMap fun c => seeds res c

/-- The first initial charge of main(): position (-8, 0, 0), value 2. -/
def chargeA : Charge := ⟨(-8, 0, 0), 2⟩

/-- The second initial charge of main(): position (8, 0, 0), value -2. -/
def chargeB : Charge := ⟨(8, 0, 0), -2⟩

/-- The initial scene of main(): the dipole { (-8,0,0,+2), (8,0,0,-2) }. -/
def scenarioCharges : List Charge := [chargeA, chargeB]

/-! Section: Componentwise vector algebra helpers -/

lemma normSq_nonneg (v : V3) : 0 ≤ normSq v := by
  unfold normSq; positivity

lemma normSq_smul (a : ℝ) (v : V3) : normSq (a • v) = a ^ 2 * normSq v := by
  obtain ⟨x, y, z⟩ := v
  simp only [normSq, Prod.smul_mk, smul_eq_mul]
  ring

lemma normSq_add_smul (x y : V3) (a : ℝ) :
    normSq (x + a • y) = normSq x + 2 * a * dot x y + a ^ 2 * normSq y := by
  obtain ⟨x1, x2, x3⟩ := x; obtain ⟨y1, y2, y3⟩ := y
  simp only [normSq, dot, Prod.smul_mk, smul_eq_mul, Prod.mk_add_mk]
  ring

lemma normSq_smul_add (a b : ℝ) (u v : V3) :
    normSq (a • u + b • v) =
      a ^ 2 * normSq u + 2 * a * b * dot u v + b ^ 2 * normSq v := by
  obtain ⟨u1, u2, u3⟩ := u; obtain ⟨v1, v2, v3⟩ := v
  simp only [normSq, dot, Prod.smul_mk, smul_eq_mul, Prod.mk_add_mk]
  ring

lemma smul_sub_self_add (a : ℝ) (u : V3) : u + a • u = (1 + a) • u := by
  obtain ⟨u1, u2, u3⟩ := u
  simp only [Prod.smul_mk, smul_eq_mul, Prod.mk_add_mk, Prod.mk.injEq]
  refine ⟨by ring, by ring, by ring⟩

lemma dot_sq_le (u v : V3) : dot u v ^ 2 ≤ normSq u * normSq v := by
  obtain ⟨u1, u2, u3⟩ := u; obtain ⟨v1, v2, v3⟩ := v
  simp only [normSq, dot]
  nlinarith [sq_nonneg (u1 * v2 - u2 * v1), sq_nonneg (u1 * v3 - u3 * v1),
    sq_nonneg (u2 * v3 - u3 * v2)]

lemma sqrt_normSq_sq (v : V3) : Real.sqrt (normSq v) ^ 2 = normSq v :=
  Real.sq_sqrt (normSq_nonneg v)

lemma abs_dot_le (u v : V3) :
    |dot u v| ≤ Real.sqrt (normSq u) * Real.sqrt (normSq v) := by
  have h := Real.sqrt_le_sqrt (dot_sq_le u v)
  rwa [Real.sqrt_sq_eq_abs, Real.sqrt_mul (normSq_nonneg u)] at h

/-! Section: Unfolding lemmas for the trace loop -/

lemma traceFrom_exhausted {cs : List Charge} {ms s : ℕ} {p : V3} (h : ms ≤ s) :
    traceFrom cs ms s p = ⟨[], [], .exhausted⟩ := by
  rw [traceFrom.eq_def, if_pos h]

lemma traceFrom_captured {cs : List Charge} {ms s : ℕ} {p : V3}
    (h1 : ¬ ms ≤ s) (h2 : HitSink cs p) :
    traceFrom cs ms s p = ⟨[], [p], .captured⟩ := by
  rw [traceFrom.eq_def, if_neg h1, if_pos h2]

lemma traceFrom_vanished {cs : List Charge} {ms s : ℕ} {p : V3}
    (h1 : ¬ ms ≤ s) (h2 : ¬ HitSink cs p) (h3 : normSq (fieldAt cs p) < 1e-12) :
    traceFrom cs ms s p = ⟨[], [p], .vanished⟩ := by
  rw [traceFrom.eq_def, if_neg h1, if_neg h2, if_pos h3]

lemma traceFrom_escaped {cs : List Charge} {ms s : ℕ} {p : V3}
    (h1 : ¬ ms ≤ s) (h2 : ¬ HitSink cs p) (h3 : ¬ normSq (fieldAt cs p) < 1e-12)
    (h4 : 2500 < normSq (stepPoint cs p)) :
    traceFrom cs ms s p = ⟨[], [p], .escaped⟩ := by
  rw [traceFrom.eq_def, if_neg h1, if_neg h2, if_neg h3, if_pos h4]

lemma traceFrom_step {cs : List Charge} {ms s : ℕ} {p : V3}
    (h1 : ¬ ms ≤ s) (h2 : ¬ HitSink cs p) (h3 : ¬ normSq (fieldAt cs p) < 1e-12)
    (h4 : ¬ 2500 < normSq (stepPoint cs p)) :
    traceFrom cs ms s p =
      ⟨mkSeg cs ms s p (stepPoint cs p) :: (traceFrom cs ms (s + 1) (stepPoint cs p)).segs,
       p :: (traceFrom cs ms (s + 1) (stepPoint cs p)).visited,
       (traceFrom cs ms (s + 1) (stepPoint cs p)).outcome⟩ := by
  rw [traceFrom.eq_def, if_neg h1, if_neg h2, if_neg h3, if_neg h4]

/-! Section: Charge store: removal by compaction -/

lemma removeAt_length :
    ∀ (l : List Charge) (i : ℕ), i < l.length → (removeAt l i).length = l.length - 1
  | _ :: xs, 0, _ => by simp [removeAt]
  | x :: xs, i + 1, h => by
    have hx : i < xs.length := by simpa using h
    simp only [removeAt, List.length_cons]
    rw [removeAt_length xs i hx]
    omega

lemma removeAt_getElem? :
    ∀ (l : List Charge) (i : ℕ), i < l.length →
      ∀ j : ℕ, (removeAt l i)[j]? = if j < i then l[j]? else l[j + 1]?
  | _ :: xs, 0, _, j => by simp [removeAt]
  | x :: xs, i + 1, h, 0 => by simp [removeAt]
  | x :: xs, i + 1, h, j + 1 => by
    have hx : i < xs.length := by simpa using h
    have ih := removeAt_getElem? xs i hx j
    simp only [removeAt, List.getElem?_cons_succ]
    rw [ih]
    by_cases hj : j < i
    · rw [if_pos hj, if_pos (by omega)]
    · rw [if_neg hj, if_neg (by omega)]

/-- C6: removing a charge at a valid index i reduces the count by exactly
one, and the surviving charges keep their relative order: entries before i
are unchanged and every entry after i shifts left by one position. -/
theorem removeAt_spec (l : List Charge) (i : ℕ) (h : i < l.length) :
    (removeAt l i).length = l.length - 1 ∧
    ∀ j : ℕ, (removeAt l i)[j]? = if j < i then l[j]? else l[j + 1]? :=
  ⟨removeAt_length l i h, removeAt_getElem? l i h⟩

/-- Witness for removeAt_spec at the two-element initial scene, i = 0. -/
theorem removeAt_spec_witness :
    (removeAt [chargeA, chargeB] 0).length = 1 ∧
    (removeAt [chargeA, chargeB] 0)[0]? = some chargeB := by
  have h := removeAt_spec [chargeA, chargeB] 0 (by simp)
  refine ⟨by simpa using h.1, ?_⟩
  have h0 := h.2 0
  simpa using h0

/-- C5: on both commit paths, an attempted charge creation with the store
at capacity (100 charges) or with a parsed value of zero is a silent no-op
on the charge sequence. -/
theorem add_rejection_spec (st : UIState) (val : ℝ) (ray : RayT)
    (h : st.charges.length = 100 ∨ val = 0) :
    (emptySpaceClick st val ray).charges = st.charges ∧
    (typingClick st val ray).charges = st.charges := by
  constructor
  · unfold emptySpaceClick
    by_cases h1 : (deselect st).isTyping = true ∧ 0 < (deselect st).input.len
    · rw [if_pos h1]
      by_cases h2 : val ≠ 0
      · rw [if_pos h2]
        rcases h with h | h
        · cases hg : GetGroundIntersection ray with
          | none => rfl
          | some pos => simp [deselect, h]
        · exact absurd h h2
      · rw [if_neg h2]
        rfl
    · rw [if_neg h1]
      rfl
  · unfold typingClick
    by_cases h1 : st.charges.length < 100 ∧ 0 < st.input.len
    · rw [if_pos h1]
      rcases h with h | h
      · exact absurd h1.1 (by omega)
      · rw [if_neg (by simpa using h)]
    · rw [if_neg h1]

/-- Witness for add_rejection_spec: a zero parsed value is rejected. -/
theorem add_rejection_spec_witness :
    (emptySpaceClick ⟨[], -1, true, ⟨fun _ => 0, 0⟩⟩ 0 ⟨(0, 10, 0), (0, -1, 0)⟩).charges = [] ∧
    (typingClick ⟨[], -1, true, ⟨fun _ => 0, 0⟩⟩ 0 ⟨(0, 10, 0), (0, -1, 0)⟩).charges = [] :=
  add_rejection_spec ⟨[], -1, true, ⟨fun _ => 0, 0⟩⟩ 0 ⟨(0, 10, 0), (0, -1, 0)⟩ (Or.inr rfl)

/-! Section: Right-click deletion and the selection invariant -/

/-- The empty input buffer. -/
def emptyBuf : InputBuf := ⟨fun _ => 0, 0⟩

/-- A reachable frame state: two charges, the second one selected (left
button held on it), while a right-click hit test reports the first. -/
def stC4 : UIState := ⟨[⟨(0, 0, 0), 1⟩, ⟨(1, 0, 0), 1⟩], 1, true, emptyBuf⟩

/-- C4 counterexample: the right-click delete handler does not clear
selectedCharge, so a state satisfying the selection invariant reaches one
that violates it (selected index 1 with only 1 charge left). -/
theorem delete_selection_cex :
    SelInvariant stC4 ∧ ¬ SelInvariant (rightClickDelete stC4 fun _ => true) := by
  have hev : rightClickDelete stC4 (fun _ => true) =
      { stC4 with charges := [⟨(1, 0, 0), 1⟩], isTyping := false } := rfl
  constructor
  · right
    refine ⟨by norm_num [stC4], ?_⟩
    norm_num [stC4]
  · rw [hev]
    rintro (h | ⟨h1, h2⟩)
    · norm_num [stC4] at h
    · norm_num [stC4] at h2

/-- C4 amended: after a secondary-click deletion the controller cancels
placing-value (isTyping := false) and removes the hit charge by
compaction, but leaves selectedCharge unchanged; the selection invariant
is guaranteed afterwards only when no charge was selected. -/
theorem delete_selection_amended (st : UIState) (ht : ℕ → Bool) :
    (∀ i, findDelete st.charges.length ht = some i →
      (rightClickDelete st ht).isTyping = false ∧
      (rightClickDelete st ht).selected = st.selected ∧
      (rightClickDelete st ht).charges = removeAt st.charges i ∧
      (st.selected = -1 → SelInvariant (rightClickDelete st ht))) ∧
    (findDelete st.charges.length ht = none → rightClickDelete st ht = st) := by
  constructor
  · intro i hi
    unfold rightClickDelete
    rw [hi]
    exact ⟨rfl, rfl, rfl, fun h => Or.inl h⟩
  · intro h
    unfold rightClickDelete
    rw [h]

/-- A one-charge state with nothing selected, for the deletion witness. -/
def stW4 : UIState := ⟨[⟨(0, 0, 0), 1⟩], -1, true, emptyBuf⟩

/-- Witness for delete_selection_amended on a concrete hit. -/
theorem delete_selection_amended_witness :
    (rightClickDelete stW4 fun _ => true).isTyping = false ∧
    (rightClickDelete stW4 fun _ => true).charges = removeAt stW4.charges 0 ∧
    SelInvariant (rightClickDelete stW4 fun _ => true) :=
  ⟨((delete_selection_amended stW4 fun _ => true).1 0 rfl).1,
   ((delete_selection_amended stW4 fun _ => true).1 0 rfl).2.2.1,
   ((delete_selection_amended stW4 fun _ => true).1 0 rfl).2.2.2 rfl⟩

/-! Section: Input buffer invariants -/

lemma bufWF_append {b : InputBuf} (h : BufWF b) (key : ℕ) : BufWF (appendKey b key) := by
  unfold appendKey
  split_ifs with hk
  · obtain ⟨hkey, hlen⟩ := hk
    unfold BufWF
    dsimp only
    refine ⟨by omega, ?_, ?_⟩
    · rw [Function.update_same]
    · intro j hj
      rcases Nat.lt_or_ge j b.len with hj2 | hj2
      · rw [Function.update_noteq (by omega), Function.update_noteq (by omega)]
        exact h.2.2 j hj2
      · have hj3 : j = b.len := by omega
        subst hj3
        rw [Function.update_noteq (by omega), Function.update_same]
        exact hkey
  · exact h

lemma bufWF_backspace {b : InputBuf} (h : BufWF b) : BufWF (backspaceKey b) := by
  unfold backspaceKey
  split_ifs with hk
  · unfold BufWF
    dsimp only
    refine ⟨by have := h.1; omega, by rw [Function.update_same], ?_⟩
    intro j hj
    rw [Function.update_noteq (by omega)]
    exact h.2.2 j (by omega)
  · exact h

lemma bufWF_reset (b : InputBuf) : BufWF (resetBuf b) := by
  unfold BufWF resetBuf
  dsimp only
  refine ⟨by omega, by rw [Function.update_same], ?_⟩
  intro j hj
  exact absurd hj (by omega)

/-- C10: the key handlers preserve buffer well-formedness (length at most
10, terminator at index length, only accepted characters stored), never
write at an index of the 16-byte array at or beyond 11, a length change on
append means an accepted key was stored at the old end, and backspace on a
nonempty buffer removes exactly the last character. -/
theorem input_buffer_spec (b : InputBuf) (hwf : BufWF b) (key : ℕ) :
    BufWF (appendKey b key) ∧ BufWF (backspaceKey b) ∧ BufWF (resetBuf b) ∧
    (∀ j, 11 ≤ j →
      (appendKey b key).arr j = b.arr j ∧
      (backspaceKey b).arr j = b.arr j ∧
      (resetBuf b).arr j = b.arr j) ∧
    ((appendKey b key).len ≠ b.len →
      keyAllowed key ∧ (appendKey b key).len = b.len + 1 ∧ (appendKey b key).arr b.len = key) ∧
    (0 < b.len →
      (backspaceKey b).len = b.len - 1 ∧
      ∀ j, j < b.len - 1 → (backspaceKey b).arr j = b.arr j) := by
  refine ⟨bufWF_append hwf key, bufWF_backspace hwf, bufWF_reset b, ?_, ?_, ?_⟩
  · intro j hj
    have hlen : b.len ≤ 10 := hwf.1
    refine ⟨?_, ?_, ?_⟩
    · unfold appendKey
      split_ifs with hk
      · dsimp only
        rw [Function.update_noteq (by omega), Function.update_noteq (by omega)]
      · rfl
    · unfold backspaceKey
      split_ifs with hk
      · dsimp only
        rw [Function.update_noteq (by omega)]
      · rfl
    · unfold resetBuf
      dsimp only
      rw [Function.update_noteq (by omega)]
  · intro hne
    unfold appendKey at hne ⊢
    split_ifs at hne ⊢ with hk
    · refine ⟨hk.1, rfl, ?_⟩
      dsimp only
      rw [Function.update_noteq (by omega), Function.update_same]
    · exact absurd rfl hne
  · intro hpos
    unfold backspaceKey
    rw [if_pos hpos]
    refine ⟨rfl, ?_⟩
    intro j hj
    dsimp only
    exact Function.update_noteq (by omega) _ _

/-- Witness for input_buffer_spec: typing the digit 5 into the empty
buffer, then backspacing it away. -/
theorem input_buffer_spec_witness :
    BufWF emptyBuf ∧ BufWF (appendKey emptyBuf 53) ∧
    keyAllowed 53 ∧ (appendKey emptyBuf 53).arr 0 = 53 ∧
    (backspaceKey (appendKey emptyBuf 53)).len = 0 := by
  have hwf : BufWF emptyBuf := ⟨by decide, rfl, fun j hj => absurd hj (by simp [emptyBuf])⟩
  have h1 := input_buffer_spec emptyBuf hwf 53
  have hwf1 : BufWF (appendKey emptyBuf 53) := h1.1
  have h2 := input_buffer_spec (appendKey emptyBuf 53) hwf1 46
  have hne : (appendKey emptyBuf 53).len ≠ emptyBuf.len := by decide
  have hlen1 : (appendKey emptyBuf 53).len = 1 := by decide
  refine ⟨hwf, hwf1, (h1.2.2.2.2.1 hne).1, ?_, ?_⟩
  · have := (h1.2.2.2.2.1 hne).2.2
    simpa [emptyBuf] using this
  · have := (h2.2.2.2.2.2 (by omega)).1
    rw [this, hlen1]

/-! Section: Ground-plane picking -/

lemma Clamp_mem {v : ℝ} {mn mx : ℝ} (h : mn ≤ mx) :
    mn ≤ Clamp v mn mx ∧ Clamp v mn mx ≤ mx := by
  unfold Clamp
  split_ifs with h1 h2 h3 <;> constructor <;> linarith

/-- C7: the vertical test ray from (3,5,4) hits the ground at (3,0,4); the
upward ray from the same origin misses; in general the intersection is
rejected exactly when the direction's y is within 0.001 of zero or the ray
parameter t is negative, and any returned point has y = 0 with x and z
clamped into the square of half-width 50. -/
theorem ground_intersection_spec :
    GetGroundIntersection ⟨(3, 5, 4), (0, -1, 0)⟩ = some (3, 0, 4) ∧
    GetGroundIntersection ⟨(3, 5, 4), (0, 1, 0)⟩ = none ∧
    (∀ r : RayT, (GetGroundIntersection r = none ↔
        |r.direction.2.1| < 0.001 ∨ -r.position.2.1 / r.direction.2.1 < 0)) ∧
    (∀ r : RayT, ∀ v : V3, GetGroundIntersection r = some v →
        v.2.1 = 0 ∧ -50 ≤ v.1 ∧ v.1 ≤ 50 ∧ -50 ≤ v.2.2 ∧ v.2.2 ≤ 50) := by
  refine ⟨?_, ?_, ?_, ?_⟩
  · unfold GetGroundIntersection
    rw [if_neg (by norm_num), if_neg (by norm_num)]
    unfold Clamp
    norm_num
  · unfold GetGroundIntersection
    rw [if_neg (by norm_num), if_pos (by norm_num)]
  · intro r
    unfold GetGroundIntersection
    by_cases h1 : |r.direction.2.1| < 0.001
    · simp [h1]
    · rw [if_neg h1]
      by_cases h2 : -r.position.2.1 / r.direction.2.1 < 0
      · simp [h1, h2]
      · simp [h1, h2]
  · intro r v hv
    unfold GetGroundIntersection at hv
    split_ifs at hv with h1 h2
    rw [Option.some.injEq] at hv
    subst hv
    exact ⟨rfl, (Clamp_mem (by norm_num)).1, (Clamp_mem (by norm_num)).2,
      (Clamp_mem (by norm_num)).1, (Clamp_mem (by norm_num)).2⟩

/-- Witness for ground_intersection_spec: the returned-point contract
checked on the vertical test ray. -/
theorem ground_intersection_spec_witness :
    ((3 : ℝ), (0 : ℝ), (4 : ℝ)).2.1 = 0 ∧
    -50 ≤ ((3 : ℝ), (0 : ℝ), (4 : ℝ)).1 ∧ ((3 : ℝ), (0 : ℝ), (4 : ℝ)).1 ≤ 50 ∧
    -50 ≤ ((3 : ℝ), (0 : ℝ), (4 : ℝ)).2.2 ∧ ((3 : ℝ), (0 : ℝ), (4 : ℝ)).2.2 ≤ 50 :=
  ground_intersection_spec.2.2.2 ⟨(3, 5, 4), (0, -1, 0)⟩ (3, 0, 4)
    ground_intersection_spec.1

/-! Section: Color blending -/

lemma lerpChannel_close (x y : ℕ) (t : ℚ) (hx : x ≤ 255) (hy : y ≤ 255)
    (h0 : 0 < t) (h1 : t < 1) :
    (1 - t) * x + t * y - 2 < (lerpChannel x y (⌊t * 256⌋).toNat : ℚ) ∧
    (lerpChannel x y (⌊t * 256⌋).toNat : ℚ) < (1 - t) * x + t * y + 1 := by
  set i : ℕ := (⌊t * 256⌋).toNat with hidef
  have hfl0 : (0 : ℤ) ≤ ⌊t * 256⌋ := Int.floor_nonneg.mpr (by positivity)
  have hiz : (i : ℤ) = ⌊t * 256⌋ := Int.toNat_of_nonneg hfl0
  have hile : (i : ℚ) ≤ t * 256 := by
    have := Int.floor_le (t * 256)
    rw [← hiz] at this
    exact_mod_cast this
  have hilt : t * 256 < (i : ℚ) + 1 := by
    have := Int.lt_floor_add_one (t * 256)
    rw [← hiz] at this
    exact_mod_cast this
  have hi255 : i ≤ 255 := by
    have hlt : ⌊t * 256⌋ < 256 := Int.floor_lt.mpr (by push_cast; nlinarith)
    omega
  have hNle : x * (256 - i) + y * i ≤ 65280 := by
    calc x * (256 - i) + y * i ≤ 255 * (256 - i) + 255 * i :=
          Nat.add_le_add (Nat.mul_le_mul_right _ hx) (Nat.mul_le_mul_right _ hy)
    _ = 255 * ((256 - i) + i) := by ring
    _ = 255 * 256 := by rw [Nat.sub_add_cancel (by omega)]
    _ = 65280 := by norm_num
  set N : ℕ := x * (256 - i) + y * i with hNdef
  have hdivlt : N / 256 < 256 := Nat.div_lt_of_lt_mul (by omega)
  have hmod : lerpChannel x y i = N / 256 := Nat.mod_eq_of_lt hdivlt
  have hdm := Nat.div_add_mod N 256
  have hmlt : N % 256 < 256 := Nat.mod_lt _ (by norm_num)
  have hq1 : (256 : ℚ) * ((N / 256 : ℕ) : ℚ) ≤ (N : ℚ) := by
    have : (256 : ℚ) * ((N / 256 : ℕ) : ℚ) + ((N % 256 : ℕ) : ℚ) = (N : ℚ) := by
      exact_mod_cast congrArg (Nat.cast : ℕ → ℚ) hdm
    have hm0 : (0 : ℚ) ≤ ((N % 256 : ℕ) : ℚ) := by positivity
    linarith
  have hq2 : (N : ℚ) < 256 * ((N / 256 : ℕ) : ℚ) + 256 := by
    have heq : (256 : ℚ) * ((N / 256 : ℕ) : ℚ) + ((N % 256 : ℕ) : ℚ) = (N : ℚ) := by
      exact_mod_cast congrArg (Nat.cast : ℕ → ℚ) hdm
    have hmq : ((N % 256 : ℕ) : ℚ) < 256 := by exact_mod_cast hmlt
    linarith
  have hNq : (N : ℚ) = (x : ℚ) * (256 - (i : ℚ)) + (y : ℚ) * (i : ℚ) := by
    rw [hNdef]
    push_cast [Nat.cast_sub (by omega : i ≤ 256)]
    ring
  have hxq : (x : ℚ) ≤ 255 := by exact_mod_cast hx
  have hyq : (y : ℚ) ≤ 255 := by exact_mod_cast hy
  have ha0 : (0 : ℚ) ≤ 256 * t - (i : ℚ) := by linarith
  have ha1 : 256 * t - (i : ℚ) < 1 := by linarith
  have hb1 : (y : ℚ) - (x : ℚ) ≤ 255 := by
    have hx0 : (0 : ℚ) ≤ (x : ℚ) := by positivity
    linarith
  have hb2 : -255 ≤ (y : ℚ) - (x : ℚ) := by
    have hy0 : (0 : ℚ) ≤ (y : ℚ) := by positivity
    linarith
  have hp1 : (256 * t - (i : ℚ)) * (255 - ((y : ℚ) - (x : ℚ))) ≥ 0 :=
    mul_nonneg ha0 (by linarith)
  have hp2 : (256 * t - (i : ℚ)) * (255 + ((y : ℚ) - (x : ℚ))) ≥ 0 :=
    mul_nonneg ha0 (by linarith)
  have hdrift1 : ((i : ℚ) - 256 * t) * ((y : ℚ) - (x : ℚ)) < 256 := by nlinarith
  have hdrift2 : -256 < ((i : ℚ) - 256 * t) * ((y : ℚ) - (x : ℚ)) := by nlinarith
  have hNL : (N : ℚ) =
      256 * ((1 - t) * (x : ℚ) + t * (y : ℚ)) +
        ((i : ℚ) - 256 * t) * ((y : ℚ) - (x : ℚ)) := by
    rw [hNq]; ring
  rw [hmod]
  constructor
  · linarith [hq2, hNL, hdrift2]
  · linarith [hq1, hNL, hdrift1]

/-- C8: CustomColorLerp returns the first color exactly for amount <= 0
and the second exactly for amount >= 1; strictly inside (0,1) it fixes the
alpha channel at 255 and each color channel is within 2 of the exact
linear interpolation (1-t)*A + t*B of the channel values. -/
theorem color_lerp_spec (A B : Color) :
    (∀ t : ℚ, t ≤ 0 → CustomColorLerp A B t = A) ∧
    (∀ t : ℚ, 1 ≤ t → CustomColorLerp A B t = B) ∧
    (∀ t : ℚ, 0 < t → t < 1 → (CustomColorLerp A B t).a = 255) ∧
    (∀ t : ℚ, 0 < t → t < 1 → A.r ≤ 255 → B.r ≤ 255 →
      (1 - t) * A.r + t * B.r - 2 < ((CustomColorLerp A B t).r : ℚ) ∧
      ((CustomColorLerp A B t).r : ℚ) < (1 - t) * A.r + t * B.r + 1) ∧
    (∀ t : ℚ, 0 < t → t < 1 → A.g ≤ 255 → B.g ≤ 255 →
      (1 - t) * A.g + t * B.g - 2 < ((CustomColorLerp A B t).g : ℚ) ∧
      ((CustomColorLerp A B t).g : ℚ) < (1 - t) * A.g + t * B.g + 1) ∧
    (∀ t : ℚ, 0 < t → t < 1 → A.b ≤ 255 → B.b ≤ 255 →
      (1 - t) * A.b + t * B.b - 2 < ((CustomColorLerp A B t).b : ℚ) ∧
      ((CustomColorLerp A B t).b : ℚ) < (1 - t) * A.b + t * B.b + 1) := by
  have hinterior : ∀ t : ℚ, 0 < t → t < 1 →
      CustomColorLerp A B t =
        ⟨lerpChannel A.r B.r (⌊t * 256⌋).toNat,
         lerpChannel A.g B.g (⌊t * 256⌋).toNat,
         lerpChannel A.b B.b (⌊t * 256⌋).toNat, 255⟩ := by
    intro t h0 h1
    unfold CustomColorLerp
    rw [if_neg (by linarith), if_neg (by linarith)]
  refine ⟨?_, ?_, ?_, ?_, ?_, ?_⟩
  · intro t ht
    unfold CustomColorLerp
    rw [if_pos ht]
  · intro t ht
    unfold CustomColorLerp
    rw [if_neg (by linarith), if_pos ht]
  · intro t h0 h1
    rw [hinterior t h0 h1]
  · intro t h0 h1 hA hB
    rw [hinterior t h0 h1]
    exact lerpChannel_close A.r B.r t hA hB h0 h1
  · intro t h0 h1 hA hB
    rw [hinterior t h0 h1]
    exact lerpChannel_close A.g B.g t hA hB h0 h1
  · intro t h0 h1 hA hB
    rw [hinterior t h0 h1]
    exact lerpChannel_close A.b B.b t hA hB h0 h1

/-- Witness for color_lerp_spec: both exact endpoints and the midpoint
interpolation bounds at two concrete colors. -/
theorem color_lerp_spec_witness :
    CustomColorLerp ⟨10, 20, 30, 40⟩ ⟨200, 100, 0, 255⟩ 0 = ⟨10, 20, 30, 40⟩ ∧
    CustomColorLerp ⟨10, 20, 30, 40⟩ ⟨200, 100, 0, 255⟩ 1 = ⟨200, 100, 0, 255⟩ ∧
    (CustomColorLerp ⟨10, 20, 30, 40⟩ ⟨200, 100, 0, 255⟩ (1 / 2)).a = 255 ∧
    (1 - 1 / 2 : ℚ) * 10 + (1 / 2) * 200 - 2 <
      ((CustomColorLerp ⟨10, 20, 30, 40⟩ ⟨200, 100, 0, 255⟩ (1 / 2)).r : ℚ) :=
  ⟨(color_lerp_spec ⟨10, 20, 30, 40⟩ ⟨200, 100, 0, 255⟩).1 0 le_rfl,
   (color_lerp_spec ⟨10, 20, 30, 40⟩ ⟨200, 100, 0, 255⟩).2.1 1 le_rfl,
   (color_lerp_spec ⟨10, 20, 30, 40⟩ ⟨200, 100, 0, 255⟩).2.2.1 (1 / 2) (by norm_num)
     (by norm_num),
   ((color_lerp_spec ⟨10, 20, 30, 40⟩ ⟨200, 100, 0, 255⟩).2.2.2.1 (1 / 2) (by norm_num)
     (by norm_num) (by norm_num) (by norm_num)).1⟩

/-! Section: Trace termination -/

lemma trace_len (cs : List Charge) (ms : ℕ) :
    ∀ n s p, n = ms - s →
      (traceFrom cs ms s p).segs.length ≤ ms - s ∧
      (traceFrom cs ms s p).visited.length ≤ ms - s := by
  intro n
  induction n with
  | zero =>
    intro s p hn
    rw [traceFrom_exhausted (by omega)]
    simp
  | succ k ih =>
    intro s p hn
    have h1 : ¬ ms ≤ s := by omega
    by_cases h2 : HitSink cs p
    · rw [traceFrom_captured h1 h2]
      simp only [List.length_nil, List.length_cons]
      omega
    by_cases h3 : normSq (fieldAt cs p) < 1e-12
    · rw [traceFrom_vanished h1 h2 h3]
      simp only [List.length_nil, List.length_cons]
      omega
    by_cases h4 : 2500 < normSq (stepPoint cs p)
    · rw [traceFrom_escaped h1 h2 h3 h4]
      simp only [List.length_nil, List.length_cons]
      omega
    · rw [traceFrom_step h1 h2 h3 h4]
      have ihs := ih (s + 1) (stepPoint cs p) (by omega)
      simp only [List.length_cons]
      omega

/-- C2: the per-seed loop emits at most maxSteps segments and runs the
charge summation at most maxSteps times; its terminal state is one of the
four outcomes; and from a point within squared distance 0.04 of a
negative charge it terminates captured at once, taking no step and
emitting no segment at that step. -/
theorem trace_termination_spec (cs : List Charge) (ms : ℕ) (p : V3) :
    (traceFrom cs ms 0 p).segs.length ≤ ms ∧
    (traceFrom cs ms 0 p).visited.length ≤ ms ∧
    ((traceFrom cs ms 0 p).outcome = .captured ∨
     (traceFrom cs ms 0 p).outcome = .vanished ∨
     (traceFrom cs ms 0 p).outcome = .escaped ∨
     (traceFrom cs ms 0 p).outcome = .exhausted) ∧
    (∀ s q, s < ms → HitSink cs q → traceFrom cs ms s q = ⟨[], [q], .captured⟩) := by
  have hl := trace_len cs ms (ms - 0) 0 p rfl
  refine ⟨by simpa using hl.1, by simpa using hl.2, ?_, ?_⟩
  · cases h : (traceFrom cs ms 0 p).outcome
    · exact Or.inl rfl
    · exact Or.inr (Or.inl rfl)
    · exact Or.inr (Or.inr (Or.inl rfl))
    · exact Or.inr (Or.inr (Or.inr rfl))
  · intro s q hs hq
    exact traceFrom_captured (by omega) hq

/-- A unit negative charge at the origin, for the capture witness. -/
def chargeNeg : Charge := ⟨(0, 0, 0), -1⟩

/-- Witness for trace_termination_spec: a point on top of a negative
charge is captured immediately. -/
theorem trace_termination_spec_witness :
    traceFrom [chargeNeg] 5 0 ((0 : ℝ), (0 : ℝ), (0 : ℝ)) =
      ⟨[], [((0 : ℝ), (0 : ℝ), (0 : ℝ))], .captured⟩ := by
  have hs : HitSink [chargeNeg] ((0 : ℝ), (0 : ℝ), (0 : ℝ)) := by
    refine ⟨chargeNeg, by simp, ?_, by norm_num [chargeNeg]⟩
    norm_num [normSq, chargeNeg, Prod.mk_sub_mk]
  exact (trace_termination_spec [chargeNeg] 5 ((0 : ℝ), (0 : ℝ), (0 : ℝ))).2.2.2 0
    ((0 : ℝ), (0 : ℝ), (0 : ℝ)) (by norm_num) hs

/-! Section: Per-segment alpha -/

lemma trace_segs_mem (cs : List Charge) (ms : ℕ) :
    ∀ n s p, n = ms - s → ∀ seg ∈ (traceFrom cs ms s p).segs,
      ∃ s2 q, s ≤ s2 ∧ s2 < ms ∧ seg = mkSeg cs ms s2 q (stepPoint cs q) := by
  intro n
  induction n with
  | zero =>
    intro s p hn seg hseg
    rw [traceFrom_exhausted (by omega)] at hseg
    simp at hseg
  | succ k ih =>
    intro s p hn seg hseg
    have h1 : ¬ ms ≤ s := by omega
    by_cases h2 : HitSink cs p
    · rw [traceFrom_captured h1 h2] at hseg
      simp at hseg
    by_cases h3 : normSq (fieldAt cs p) < 1e-12
    · rw [traceFrom_vanished h1 h2 h3] at hseg
      simp at hseg
    by_cases h4 : 2500 < normSq (stepPoint cs p)
    · rw [traceFrom_escaped h1 h2 h3 h4] at hseg
      simp at hseg
    · rw [traceFrom_step h1 h2 h3 h4] at hseg
      rcases List.mem_cons.mp hseg with h | h
      · exact ⟨s, p, le_rfl, by omega, h⟩
      · obtain ⟨s2, q, hle, hlt, heq⟩ := ih (s + 1) (stepPoint cs p) (by omega) seg h
        exact ⟨s2, q, by omega, hlt, heq⟩

lemma alphaAt_cases (ms s : ℕ) (d : ℝ) (h : s < ms) :
    alphaAt ms s d =
      (if 20 < d then (1 : ℝ) / 2 else 1) *
      (if ms ≤ s + 50 then ((ms : ℝ) - (s : ℝ)) / 50 else 1) := by
  have hinner : (if (ms : ℤ) - 50 < (s : ℤ) then ((ms : ℝ) - (s : ℝ)) / 50 else 1) =
      (if ms ≤ s + 50 then ((ms : ℝ) - (s : ℝ)) / 50 else 1) := by
    rcases lt_trichotomy ms (s + 50) with hc | hc | hc
    · rw [if_pos (by omega), if_pos (by omega)]
    · rw [if_neg (by omega), if_pos (by omega)]
      have : (ms : ℝ) = (s : ℝ) + 50 := by
        subst hc
        push_cast
        ring
      rw [this]
      norm_num
    · rw [if_neg (by omega), if_neg (by omega)]
  unfold alphaAt
  rw [hinner]
  by_cases hd : 20 < d
  · rw [if_pos hd, if_pos hd]
    ring
  · rw [if_neg hd, if_neg hd]
    ring

/-- C9: every emitted segment of every traced line is the segment emitted
at some step s from its own pre-step point q (the segment's start
endpoint), and its alpha is the formula at exactly that s and q: 1.0
normally, (maxSteps - step)/50 within the final 50 steps of the budget,
halved whenever the minimum distance from q to a negative charge exceeds
20 units. -/
theorem segment_alpha_spec (cs : List Charge) (ms s0 : ℕ) (p0 : V3) (seg : Segment)
    (h : seg ∈ (traceFrom cs ms s0 p0).segs) :
    ∃ s q, s0 ≤ s ∧ s < ms ∧
      seg = mkSeg cs ms s q (stepPoint cs q) ∧
      seg.a = q ∧
      seg.alpha =
        (if 20 < minDistToNeg cs q then (1 : ℝ) / 2 else 1) *
        (if ms ≤ s + 50 then ((ms : ℝ) - (s : ℝ)) / 50 else 1) := by
  obtain ⟨s, q, hle, hlt, heq⟩ := trace_segs_mem cs ms (ms - s0) s0 p0 rfl seg h
  refine ⟨s, q, hle, hlt, heq, ?_, ?_⟩
  · rw [heq]
    rfl
  · rw [heq]
    exact alphaAt_cases ms s (minDistToNeg cs q) hlt

/-- A unit positive charge at the origin, used by several witnesses. -/
def chargeW : Charge := ⟨(0, 0, 0), 1⟩

/-- The concrete seed point used by the trace-evaluation witnesses. -/
noncomputable def pW : V3 := (1 / 10, 0, 0)

lemma fieldAt_single (c : Charge) (p : V3) :
    fieldAt [c] p =
      (c.value * (1 / Real.sqrt (normSq (p - c.position))) ^ 3) • (p - c.position) := by
  unfold fieldAt
  simp

lemma pW_sub : pW - chargeW.position = ((1 : ℝ) / 10, (0 : ℝ), (0 : ℝ)) := by
  show pW - ((0 : ℝ), (0 : ℝ), (0 : ℝ)) = _
  rw [pW, Prod.mk_sub_mk, Prod.mk_sub_mk]
  norm_num

lemma sqrt_hundredth : Real.sqrt (1 / 100) = 1 / 10 := by
  rw [show (1 / 100 : ℝ) = (1 / 10) ^ 2 by norm_num, Real.sqrt_sq (by norm_num)]

lemma fieldAt_W : fieldAt [chargeW] pW = ((100 : ℝ), (0 : ℝ), (0 : ℝ)) := by
  rw [fieldAt_single, pW_sub]
  have hnu : normSq ((1 : ℝ) / 10, (0 : ℝ), (0 : ℝ)) = 1 / 100 := by
    norm_num [normSq]
  rw [hnu, sqrt_hundredth]
  show (chargeW.value * (1 / (1 / 10)) ^ 3) • _ = _
  rw [show chargeW.value = (1 : ℝ) from rfl, Prod.smul_mk, Prod.smul_mk]
  norm_num

lemma magSq_W : normSq (fieldAt [chargeW] pW) = 10000 := by
  rw [fieldAt_W]
  norm_num [normSq]

lemma stepPoint_W : stepPoint [chargeW] pW = ((3 : ℝ) / 20, (0 : ℝ), (0 : ℝ)) := by
  unfold stepPoint
  rw [magSq_W, fieldAt_W, show Real.sqrt 10000 = 100 by
    rw [show (10000 : ℝ) = 100 ^ 2 by norm_num, Real.sqrt_sq (by norm_num)]]
  rw [pW, Prod.smul_mk, Prod.smul_mk, Prod.mk_add_mk, Prod.mk_add_mk]
  norm_num

lemma hitSink_W : ¬ HitSink [chargeW] pW := by
  rintro ⟨c, hc, -, hv⟩
  simp only [List.mem_singleton] at hc
  subst hc
  norm_num [chargeW] at hv

lemma trace_eval_W :
    traceFrom [chargeW] 1 0 pW =
      ⟨[mkSeg [chargeW] 1 0 pW (stepPoint [chargeW] pW)], [pW], .exhausted⟩ := by
  rw [traceFrom_step (by norm_num) hitSink_W
      (by rw [magSq_W]; norm_num)
      (by rw [stepPoint_W]; norm_num [normSq]),
    traceFrom_exhausted (le_refl 1)]

/-- Witness for segment_alpha_spec on a concrete one-step trace. -/
theorem segment_alpha_spec_witness :
    ∃ (s : ℕ) (q : V3), 0 ≤ s ∧ s < 1 ∧
      mkSeg [chargeW] 1 0 pW (stepPoint [chargeW] pW) =
        mkSeg [chargeW] 1 s q (stepPoint [chargeW] q) ∧
      (mkSeg [chargeW] 1 0 pW (stepPoint [chargeW] pW)).a = q ∧
      (mkSeg [chargeW] 1 0 pW (stepPoint [chargeW] pW)).alpha =
        (if 20 < minDistToNeg [chargeW] q then (1 : ℝ) / 2 else 1) *
        (if 1 ≤ s + 50 then (((1 : ℕ) : ℝ) - (s : ℝ)) / 50 else 1) :=
  segment_alpha_spec [chargeW] 1 0 pW
    (mkSeg [chargeW] 1 0 pW (stepPoint [chargeW] pW))
    (by rw [trace_eval_W]; exact List.mem_singleton.mpr rfl)

/-! Section: Seeding -/

lemma sum_map_const {α : Type} (l : List α) (k : ℕ) :
    (l.map fun _ => k).sum = l.length * k := by
  induction l with
  | nil => simp
  | cons x xs ih => simp [ih, Nat.succ_mul, Nat.add_comm]

lemma seeds_length (res : ℕ) (c : Charge) :
    (seeds res c).length = (3 * res - 1) * (4 * res) := by
  unfold seeds seedGrid
  rw [List.length_map, List.length_flatMap]
  have hmap : ∀ t : ℕ, ((List.range (4 * res)).map fun p => (t, p)).length = 4 * res := by
    intro t
    rw [List.length_map, List.length_range]
  calc ((List.range' 1 (3 * res - 1)).map fun t =>
          ((List.range (4 * res)).map fun p => (t, p)).length).sum
      = ((List.range' 1 (3 * res - 1)).map fun _ => 4 * res).sum := by
        congr 1
        exact List.map_congr_left fun t _ => hmap t
    _ = (3 * res - 1) * (4 * res) := by
        rw [sum_map_const, List.length_range']

lemma seed_normSq (c : Charge) (res t p : ℕ) :
    normSq (seedPoint c res t p - c.position) = 1 / 100 := by
  obtain ⟨⟨cx, cy, cz⟩, cv⟩ := c
  unfold seedPoint
  dsimp only
  rw [Prod.mk_sub_mk, Prod.mk_sub_mk]
  unfold normSq
  dsimp only
  have hphi := Real.sin_sq_add_cos_sq (2 * Real.pi * (p : ℝ) / (4 * (res : ℝ)))
  have htheta := Real.sin_sq_add_cos_sq (Real.pi * (t : ℝ) / (3 * (res : ℝ)))
  linear_combination
    (1 / 100 : ℝ) * Real.sin (Real.pi * (t : ℝ) / (3 * (res : ℝ))) ^ 2 * hphi +
    (1 / 100 : ℝ) * htheta

lemma seedGrid_mem {res t p : ℕ} (h : (t, p) ∈ seedGrid res) :
    1 ≤ t ∧ t < 3 * res ∧ p < 4 * res := by
  unfold seedGrid at h
  obtain ⟨t2, ht2, hmem⟩ := List.mem_flatMap.mp h
  obtain ⟨p2, hp2, heq⟩ := List.mem_map.mp hmem
  injection heq with h1 h2
  rw [← h1, ← h2]
  have hr : 1 ≤ t2 ∧ t2 < 1 + (3 * res - 1) := List.mem_range'_1.mp ht2
  have hp : p2 < 4 * res := List.mem_range.mp hp2
  exact ⟨hr.1, by omega, hp⟩

lemma seed_mem_spec (res : ℕ) (hres : 1 ≤ res) (c : Charge) :
    ∀ q ∈ seeds res c, normSq (q - c.position) = 1 / 100 ∧
      0 < (q.1 - c.position.1) ^ 2 + (q.2.1 - c.position.2.1) ^ 2 := by
  intro q hq
  unfold seeds at hq
  obtain ⟨⟨t, p⟩, htp, rfl⟩ := List.mem_map.mp hq
  refine ⟨seed_normSq c res t p, ?_⟩
  obtain ⟨ht1, ht2, -⟩ := seedGrid_mem htp
  have hres' : (1 : ℝ) ≤ (res : ℝ) := by exact_mod_cast hres
  have ht1' : (1 : ℝ) ≤ (t : ℝ) := by exact_mod_cast ht1
  have ht2' : (t : ℝ) < 3 * (res : ℝ) := by exact_mod_cast ht2
  have hden : (0 : ℝ) < 3 * (res : ℝ) := by linarith
  have hθpos : 0 < Real.pi * (t : ℝ) / (3 * (res : ℝ)) := by
    apply div_pos _ hden
    have := Real.pi_pos
    nlinarith
  have hθlt : Real.pi * (t : ℝ) / (3 * (res : ℝ)) < Real.pi := by
    rw [div_lt_iff₀ hden]
    have := Real.pi_pos
    nlinarith
  have hsin : 0 < Real.sin (Real.pi * (t : ℝ) / (3 * (res : ℝ))) :=
    Real.sin_pos_of_pos_of_lt_pi hθpos hθlt
  obtain ⟨⟨cx, cy, cz⟩, cv⟩ := c
  unfold seedPoint
  dsimp only
  have hphi := Real.sin_sq_add_cos_sq (2 * Real.pi * (p : ℝ) / (4 * (res : ℝ)))
  have hkey :
      (cx + 0.1 * Real.sin (Real.pi * (t : ℝ) / (3 * (res : ℝ))) *
          Real.cos (2 * Real.pi * (p : ℝ) / (4 * (res : ℝ))) - cx) ^ 2 +
      (cy + 0.1 * Real.sin (Real.pi * (t : ℝ) / (3 * (res : ℝ))) *
          Real.sin (2 * Real.pi * (p : ℝ) / (4 * (res : ℝ))) - cy) ^ 2 =
      (0.1 * Real.sin (Real.pi * (t : ℝ) / (3 * (res : ℝ)))) ^ 2 := by
    linear_combination
      (0.1 * Real.sin (Real.pi * (t : ℝ) / (3 * (res : ℝ)))) ^ 2 * hphi
  rw [hkey]
  positivity

open Classical in
lemma tracedCharges_scenario : tracedCharges scenarioCharges = [chargeA] := by
  unfold scenarioCharges
  rw [tracedCharges, if_neg (by norm_num [chargeA]), tracedCharges,
    if_pos (by norm_num [chargeB]), tracedCharges]

lemma frameSeeds_scenario_length : (frameSeeds scenarioCharges 3).length = 96 := by
  unfold frameSeeds
  rw [tracedCharges_scenario]
  simp only [List.flatMap_cons, List.flatMap_nil, List.append_nil]
  rw [seeds_length]

lemma fieldAt_pair (c1 c2 : Charge) (p : V3) :
    fieldAt [c1, c2] p =
      (c1.value * (1 / Real.sqrt (normSq (p - c1.position))) ^ 3) • (p - c1.position) +
      (c2.value * (1 / Real.sqrt (normSq (p - c2.position))) ^ 3) • (p - c2.position) := by
  unfold fieldAt
  simp

lemma normSq_add (x y : V3) :
    normSq (x + y) = normSq x + 2 * dot x y + normSq y := by
  obtain ⟨x1, x2, x3⟩ := x; obtain ⟨y1, y2, y3⟩ := y
  simp only [normSq, dot, Prod.mk_add_mk]
  ring

lemma scenario_dist_B (q : V3) (hq : normSq (q - chargeA.position) = 1 / 100) :
    252 ≤ normSq (q - chargeB.position) ∧ normSq (q - chargeB.position) ≤ 260 := by
  obtain ⟨qx, qy, qz⟩ := q
  have hsubA : ((qx, qy, qz) : V3) - chargeA.position = (qx + 8, qy, qz) := by
    show ((qx, qy, qz) : V3) - ((-8 : ℝ), (0 : ℝ), (0 : ℝ)) = _
    rw [Prod.mk_sub_mk, Prod.mk_sub_mk]
    norm_num
  have hsubB : ((qx, qy, qz) : V3) - chargeB.position = (qx - 8, qy, qz) := by
    show ((qx, qy, qz) : V3) - ((8 : ℝ), (0 : ℝ), (0 : ℝ)) = _
    rw [Prod.mk_sub_mk, Prod.mk_sub_mk]
    norm_num
  rw [hsubA] at hq
  rw [hsubB]
  have hq' : (qx + 8) ^ 2 + qy ^ 2 + qz ^ 2 = 1 / 100 := hq
  have hgoal : normSq ((qx - 8 : ℝ), qy, qz) = (qx - 8) ^ 2 + qy ^ 2 + qz ^ 2 := rfl
  rw [hgoal]
  constructor
  · nlinarith [sq_nonneg qy, sq_nonneg qz, sq_nonneg (qx + 8 - 1 / 10)]
  · nlinarith [sq_nonneg qy, sq_nonneg qz, sq_nonneg (qx + 8 + 1 / 10)]

lemma scenario_no_sink (q : V3) (h252 : 252 ≤ normSq (q - chargeB.position)) :
    ¬ HitSink scenarioCharges q := by
  rintro ⟨c, hc, hd, hv⟩
  simp only [scenarioCharges, List.mem_cons, List.mem_singleton,
    List.not_mem_nil, or_false] at hc
  rcases hc with rfl | rfl
  · norm_num [chargeA] at hv
  · linarith

lemma scenario_no_vanish (q : V3) (hq : normSq (q - chargeA.position) = 1 / 100)
    (h252 : 252 ≤ normSq (q - chargeB.position)) :
    39996 ≤ normSq (fieldAt scenarioCharges q) := by
  have hnvpos : (0 : ℝ) < normSq (q - chargeB.position) := by linarith
  have hrpos : 0 < Real.sqrt (normSq (q - chargeB.position)) := Real.sqrt_pos.mpr hnvpos
  have hr2 : Real.sqrt (normSq (q - chargeB.position)) ^ 2 = normSq (q - chargeB.position) :=
    sqrt_normSq_sq _
  have hr15 : 15 ≤ Real.sqrt (normSq (q - chargeB.position)) := by
    rw [show (15 : ℝ) = Real.sqrt 225 by
      rw [show (225 : ℝ) = 15 ^ 2 by norm_num, Real.sqrt_sq (by norm_num)]]
    exact Real.sqrt_le_sqrt (by linarith)
  have hD : |dot (q - chargeA.position) (q - chargeB.position)| ≤
      1 / 10 * Real.sqrt (normSq (q - chargeB.position)) := by
    have h := abs_dot_le (q - chargeA.position) (q - chargeB.position)
    rwa [hq, sqrt_hundredth] at h
  have hE : fieldAt scenarioCharges q =
      (2000 : ℝ) • (q - chargeA.position) +
      (-2 * (1 / Real.sqrt (normSq (q - chargeB.position))) ^ 3) • (q - chargeB.position) := by
    show fieldAt [chargeA, chargeB] q = _
    rw [fieldAt_pair, hq, sqrt_hundredth]
    rw [show chargeA.value * (1 / ((1 : ℝ) / 10)) ^ 3 = (2000 : ℝ) by norm_num [chargeA],
      show chargeB.value = (-2 : ℝ) from rfl]
  rw [hE, normSq_smul_add, hq]
  have hDle : dot (q - chargeA.position) (q - chargeB.position) ≤
      1 / 10 * Real.sqrt (normSq (q - chargeB.position)) :=
    le_trans (le_abs_self _) hD
  have hinv3 : (0 : ℝ) < (1 / Real.sqrt (normSq (q - chargeB.position))) ^ 3 := by positivity
  have hT2 : 8000 * (1 / Real.sqrt (normSq (q - chargeB.position))) ^ 3 *
      dot (q - chargeA.position) (q - chargeB.position) ≤
      8000 * (1 / Real.sqrt (normSq (q - chargeB.position))) ^ 3 *
        (1 / 10 * Real.sqrt (normSq (q - chargeB.position))) :=
    mul_le_mul_of_nonneg_left hDle (by positivity)
  have hcube : (1 / Real.sqrt (normSq (q - chargeB.position))) ^ 3 *
      Real.sqrt (normSq (q - chargeB.position)) =
      (1 / Real.sqrt (normSq (q - chargeB.position))) ^ 2 := by
    have hne : Real.sqrt (normSq (q - chargeB.position)) ≠ 0 := hrpos.ne'
    field_simp
    rw [pow_succ, hr2]
    ring
  have hsq225 : (1 / Real.sqrt (normSq (q - chargeB.position))) ^ 2 ≤ 1 / 225 := by
    rw [div_pow, one_pow]
    exact one_div_le_one_div_of_le (by norm_num) (by nlinarith [hr15])
  have hT3 : 0 ≤ (-2 * (1 / Real.sqrt (normSq (q - chargeB.position))) ^ 3) ^ 2 *
      normSq (q - chargeB.position) := mul_nonneg (sq_nonneg _) (normSq_nonneg _)
  nlinarith [hT2, hcube, hsq225, hT3]

lemma scenario_normSq_le (q : V3) (hq : normSq (q - chargeA.position) = 1 / 100) :
    normSq q ≤ 65.61 := by
  have hA : normSq chargeA.position = 64 := by
    show normSq ((-8 : ℝ), (0 : ℝ), (0 : ℝ)) = 64
    norm_num [normSq]
  have h1 : normSq ((q - chargeA.position) + chargeA.position) =
      normSq (q - chargeA.position) + 2 * dot (q - chargeA.position) chargeA.position +
        normSq chargeA.position := normSq_add _ _
  rw [sub_add_cancel] at h1
  have hdot : |dot (q - chargeA.position) chargeA.position| ≤ 1 / 10 * 8 := by
    have h := abs_dot_le (q - chargeA.position) chargeA.position
    rwa [hq, sqrt_hundredth, hA,
      show Real.sqrt 64 = 8 by
        rw [show (64 : ℝ) = 8 ^ 2 by norm_num, Real.sqrt_sq (by norm_num)]] at h
  have habs := abs_le.mp hdot
  rw [h1, hq, hA]
  linarith [habs.1, habs.2]

lemma scenario_no_escape (q : V3) (hq : normSq (q - chargeA.position) = 1 / 100)
    (hmag : 39996 ≤ normSq (fieldAt scenarioCharges q)) :
    normSq (stepPoint scenarioCharges q) ≤ 2500 := by
  have hnq := scenario_normSq_le q hq
  have hmagpos : 0 < normSq (fieldAt scenarioCharges q) := by linarith
  have hmpos : 0 < Real.sqrt (normSq (fieldAt scenarioCharges q)) := Real.sqrt_pos.mpr hmagpos
  have hm2 : Real.sqrt (normSq (fieldAt scenarioCharges q)) ^ 2 =
      normSq (fieldAt scenarioCharges q) := sqrt_normSq_sq _
  have hsq : Real.sqrt (normSq q) ≤ 8.1 := by
    rw [show (8.1 : ℝ) = Real.sqrt 65.61 by
      rw [show (65.61 : ℝ) = 8.1 ^ 2 by norm_num, Real.sqrt_sq (by norm_num)]]
    exact Real.sqrt_le_sqrt hnq
  have hdqE : |dot q (fieldAt scenarioCharges q)| ≤
      8.1 * Real.sqrt (normSq (fieldAt scenarioCharges q)) := by
    have h := abs_dot_le q (fieldAt scenarioCharges q)
    exact le_trans h (mul_le_mul_of_nonneg_right hsq hmpos.le)
  unfold stepPoint
  rw [normSq_add_smul]
  have hT3 : (0.05 * (1 / Real.sqrt (normSq (fieldAt scenarioCharges q)))) ^ 2 *
      normSq (fieldAt scenarioCharges q) = 0.05 ^ 2 := by
    nth_rewrite 2 [← hm2]
    have hinv : 1 / Real.sqrt (normSq (fieldAt scenarioCharges q)) *
        Real.sqrt (normSq (fieldAt scenarioCharges q)) = 1 :=
      one_div_mul_cancel hmpos.ne'
    calc (0.05 * (1 / Real.sqrt (normSq (fieldAt scenarioCharges q)))) ^ 2 *
          Real.sqrt (normSq (fieldAt scenarioCharges q)) ^ 2
        = 0.05 ^ 2 * (1 / Real.sqrt (normSq (fieldAt scenarioCharges q)) *
            Real.sqrt (normSq (fieldAt scenarioCharges q))) ^ 2 := by ring
      _ = 0.05 ^ 2 := by rw [hinv]; norm_num
  have hT2 : 2 * (0.05 * (1 / Real.sqrt (normSq (fieldAt scenarioCharges q)))) *
      dot q (fieldAt scenarioCharges q) ≤ 0.81 := by
    have habs := (abs_le.mp hdqE).2
    have h1 : 2 * (0.05 * (1 / Real.sqrt (normSq (fieldAt scenarioCharges q)))) *
        dot q (fieldAt scenarioCharges q) ≤
        2 * (0.05 * (1 / Real.sqrt (normSq (fieldAt scenarioCharges q)))) *
          (8.1 * Real.sqrt (normSq (fieldAt scenarioCharges q))) :=
      mul_le_mul_of_nonneg_left habs (by positivity)
    have h2 : 2 * (0.05 * (1 / Real.sqrt (normSq (fieldAt scenarioCharges q)))) *
        (8.1 * Real.sqrt (normSq (fieldAt scenarioCharges q))) =
        0.81 * (1 / Real.sqrt (normSq (fieldAt scenarioCharges q)) *
          Real.sqrt (normSq (fieldAt scenarioCharges q))) := by ring
    rw [h2, one_div_mul_cancel hmpos.ne', mul_one] at h1
    exact h1
  rw [hT3]
  linarith [hnq, hT2]

lemma scenario_first_emit (q : V3) (hq : normSq (q - chargeA.position) = 1 / 100) :
    1 ≤ (traceFrom scenarioCharges 3000 0 q).segs.length := by
  have h252 := (scenario_dist_B q hq).1
  have hmag := scenario_no_vanish q hq h252
  rw [traceFrom_step (by norm_num) (scenario_no_sink q h252)
    (not_lt.mpr (le_trans (by norm_num) hmag))
    (not_lt.mpr (scenario_no_escape q hq hmag))]
  simp

/-- C1: the tracer seeds exactly (3 res - 1) * (4 res) rays per positive
charge, each on the sphere of radius 0.1 around the charge center and off
the polar axis (poles skipped); in the initial dipole scene with
resolution 3 and 3000 steps, exactly 96 lines are traced (all from the
single positive charge) and each emits at least one segment. -/
theorem seeding_spec (res : ℕ) (hres : 1 ≤ res) (c : Charge) :
    (seeds res c).length = (3 * res - 1) * (4 * res) ∧
    (∀ q ∈ seeds res c, normSq (q - c.position) = 1 / 100 ∧
      0 < (q.1 - c.position.1) ^ 2 + (q.2.1 - c.position.2.1) ^ 2) ∧
    (frameSeeds scenarioCharges 3).length = 96 ∧
    (∀ q ∈ seeds 3 chargeA, 1 ≤ (traceFrom scenarioCharges 3000 0 q).segs.length) :=
  ⟨seeds_length res c, seed_mem_spec res hres c, frameSeeds_scenario_length,
   fun q hq =>
     scenario_first_emit q ((seed_mem_spec 3 (by norm_num) chargeA q hq).1)⟩

/-- Witness for seeding_spec at resolution 1 and a concrete seed. -/
theorem seeding_spec_witness :
    (seeds 1 chargeW).length = (3 * 1 - 1) * (4 * 1) ∧
    normSq (seedPoint chargeW 1 1 0 - chargeW.position) = 1 / 100 :=
  ⟨(seeding_spec 1 le_rfl chargeW).1,
   ((seeding_spec 1 le_rfl chargeW).2.1 (seedPoint chargeW 1 1 0)
     (by unfold seeds; exact List.mem_map.mpr ⟨(1, 0), by decide, rfl⟩)).1⟩

/-! Section: Single-charge traces -/

lemma normSq_sub (x y : V3) :
    normSq (x - y) = normSq x - 2 * dot x y + normSq y := by
  obtain ⟨x1, x2, x3⟩ := x; obtain ⟨y1, y2, y3⟩ := y
  simp only [normSq, dot, Prod.mk_sub_mk]
  ring

lemma hitSink_single_pos {c : Charge} (hv : 0 < c.value) (p : V3) :
    ¬ HitSink [c] p := by
  rintro ⟨c2, hc2, -, hneg⟩
  simp only [List.mem_singleton] at hc2
  subst hc2
  linarith

lemma magSq_single_eq (c : Charge) (p : V3) (hnu : 0 < normSq (p - c.position)) :
    normSq (fieldAt [c] p) = c.value ^ 2 / normSq (p - c.position) ^ 2 := by
  rw [fieldAt_single, normSq_smul]
  have key : Real.sqrt (normSq (p - c.position)) ^ 6 = normSq (p - c.position) ^ 3 := by
    rw [show Real.sqrt (normSq (p - c.position)) ^ 6 =
        (Real.sqrt (normSq (p - c.position)) ^ 2) ^ 3 by ring, sqrt_normSq_sq]
  have h6 : (1 / Real.sqrt (normSq (p - c.position))) ^ 6 =
      1 / normSq (p - c.position) ^ 3 := by
    rw [div_pow, one_pow, key]
  calc (c.value * (1 / Real.sqrt (normSq (p - c.position))) ^ 3) ^ 2 *
        normSq (p - c.position)
      = c.value ^ 2 * (1 / Real.sqrt (normSq (p - c.position))) ^ 6 *
          normSq (p - c.position) := by ring
    _ = c.value ^ 2 * (1 / normSq (p - c.position) ^ 3) * normSq (p - c.position) := by
        rw [h6]
    _ = c.value ^ 2 / normSq (p - c.position) ^ 2 := by
        field_simp
        ring

lemma stepPoint_single (c : Charge) (p : V3) (hv : 0 < c.value)
    (hnu : 0 < normSq (p - c.position)) :
    stepPoint [c] p =
      p + (0.05 / Real.sqrt (normSq (p - c.position))) • (p - c.position) := by
  have hrpos : 0 < Real.sqrt (normSq (p - c.position)) := Real.sqrt_pos.mpr hnu
  have hspos : 0 < c.value * (1 / Real.sqrt (normSq (p - c.position))) ^ 3 := by positivity
  unfold stepPoint
  rw [fieldAt_single, normSq_smul, smul_smul]
  congr 1
  congr 1
  rw [Real.sqrt_mul (sq_nonneg _), Real.sqrt_sq hspos.le]
  field_simp
  ring

lemma step_dist_single (c : Charge) (p : V3) (hv : 0 < c.value)
    (hnu : 0 < normSq (p - c.position)) :
    normSq (stepPoint [c] p - c.position) =
      (Real.sqrt (normSq (p - c.position)) + 0.05) ^ 2 := by
  have hrpos : 0 < Real.sqrt (normSq (p - c.position)) := Real.sqrt_pos.mpr hnu
  rw [stepPoint_single c p hv hnu]
  rw [add_sub_right_comm, smul_sub_self_add, normSq_smul]
  nth_rewrite 2 [← sqrt_normSq_sq (p - c.position)]
  field_simp

lemma dist_le_box {c : Charge} (hcx : |c.position.1| ≤ 50) (hcy : c.position.2.1 = 0)
    (hcz : |c.position.2.2| ≤ 50) {p : V3} (hp : normSq p ≤ 2500) :
    normSq (p - c.position) ≤ 20000 := by
  have hA : normSq c.position ≤ 5000 := by
    have h1 := abs_le.mp hcx
    have h2 := abs_le.mp hcz
    have : normSq c.position =
        c.position.1 ^ 2 + c.position.2.1 ^ 2 + c.position.2.2 ^ 2 := rfl
    rw [this, hcy]
    nlinarith [h1.1, h1.2, h2.1, h2.2]
  have h1 : Real.sqrt (normSq p) ≤ 50 := by
    rw [show (50 : ℝ) = Real.sqrt 2500 by
      rw [show (2500 : ℝ) = 50 ^ 2 by norm_num, Real.sqrt_sq (by norm_num)]]
    exact Real.sqrt_le_sqrt hp
  have h2 : Real.sqrt (normSq c.position) ≤ 71 := by
    rw [show (71 : ℝ) = Real.sqrt 5041 by
      rw [show (5041 : ℝ) = 71 ^ 2 by norm_num, Real.sqrt_sq (by norm_num)]]
    exact Real.sqrt_le_sqrt (by linarith)
  have h3 : |dot p c.position| ≤ 3550 := by
    calc |dot p c.position| ≤ Real.sqrt (normSq p) * Real.sqrt (normSq c.position) :=
          abs_dot_le p c.position
    _ ≤ 50 * 71 := by
          apply mul_le_mul h1 h2 (Real.sqrt_nonneg _) (by norm_num)
    _ = 3550 := by norm_num
  have habs := abs_le.mp h3
  rw [normSq_sub]
  linarith [habs.1, habs.2]

lemma trace_single_aux (c : Charge) (hv : 1 ≤ c.value)
    (hcx : |c.position.1| ≤ 50) (hcy : c.position.2.1 = 0) (hcz : |c.position.2.2| ≤ 50)
    (ms : ℕ) :
    ∀ n s p, n = ms - s →
      0 < normSq (p - c.position) →
      (normSq (p - c.position) ≤ 1 / 100 ∨ normSq p ≤ 2500) →
      ((traceFrom [c] ms s p).outcome = .escaped ∨
       (traceFrom [c] ms s p).outcome = .exhausted) ∧
      ∀ x ∈ (traceFrom [c] ms s p).visited, 0 < normSq (x - c.position) := by
  intro n
  induction n with
  | zero =>
    intro s p hn hpos hinv
    rw [traceFrom_exhausted (by omega)]
    exact ⟨Or.inr rfl, by simp⟩
  | succ k ih =>
    intro s p hn hpos hinv
    have h1 : ¬ ms ≤ s := by omega
    have h2 : ¬ HitSink [c] p := hitSink_single_pos (by linarith) p
    have hnubd : normSq (p - c.position) ≤ 20000 := by
      rcases hinv with h | h
      · linarith
      · exact dist_le_box hcx hcy hcz h
    have h3 : ¬ normSq (fieldAt [c] p) < 1e-12 := by
      rw [magSq_single_eq c p hpos]
      apply not_lt.mpr
      rw [le_div_iff₀ (by positivity)]
      nlinarith [hnubd, hv, hpos]
    by_cases h4 : 2500 < normSq (stepPoint [c] p)
    · rw [traceFrom_escaped h1 h2 h3 h4]
      refine ⟨Or.inl rfl, ?_⟩
      intro x hx
      simp only [List.mem_singleton] at hx
      subst hx
      exact hpos
    · rw [traceFrom_step h1 h2 h3 h4]
      have hstep_pos : 0 < normSq (stepPoint [c] p - c.position) := by
        rw [step_dist_single c p (by linarith) hpos]
        positivity
      have hih := ih (s + 1) (stepPoint [c] p) (by omega) hstep_pos
        (Or.inr (not_lt.mp h4))
      refine ⟨hih.1, ?_⟩
      intro x hx
      rcases List.mem_cons.mp hx with rfl | hx2
      · exact hpos
      · exact hih.2 x hx2

/-- C3 amended: for a single positive charge of magnitude at least 1
placed in the clamped ground square (|x| <= 50, y = 0, |z| <= 50) and no
other charges, every seeded line keeps a strictly positive distance to
the charge at every visited point (so no division by a zero distance
occurs) and terminates by escaped-boundary or step-budget-exhausted,
never captured-by-sink. -/
theorem single_charge_trace_amended (c : Charge) (hv : 1 ≤ c.value)
    (hcx : |c.position.1| ≤ 50) (hcy : c.position.2.1 = 0) (hcz : |c.position.2.2| ≤ 50)
    (ms res : ℕ) :
    ∀ q ∈ seeds res c,
      ((traceFrom [c] ms 0 q).outcome = .escaped ∨
       (traceFrom [c] ms 0 q).outcome = .exhausted) ∧
      ∀ x ∈ (traceFrom [c] ms 0 q).visited, 0 < normSq (x - c.position) := by
  intro q hq
  unfold seeds at hq
  obtain ⟨⟨t, p⟩, htp, rfl⟩ := List.mem_map.mp hq
  have hnu := seed_normSq c res t p
  exact trace_single_aux c hv hcx hcy hcz ms (ms - 0) 0 _ rfl
    (by rw [hnu]; norm_num) (Or.inl (by rw [hnu]))

/-- Witness for single_charge_trace_amended at a concrete seed of the
unit origin charge. -/
theorem single_charge_trace_amended_witness :
    ((traceFrom [chargeW] 1 0 (seedPoint chargeW 1 1 0)).outcome = .escaped ∨
     (traceFrom [chargeW] 1 0 (seedPoint chargeW 1 1 0)).outcome = .exhausted) ∧
    ∀ x ∈ (traceFrom [chargeW] 1 0 (seedPoint chargeW 1 1 0)).visited,
      0 < normSq (x - chargeW.position) :=
  single_charge_trace_amended chargeW (by norm_num [chargeW]) (by norm_num [chargeW])
    (by norm_num [chargeW]) (by norm_num [chargeW]) 1 1 (seedPoint chargeW 1 1 0)
    (by unfold seeds; exact List.mem_map.mpr ⟨(1, 0), by decide, rfl⟩)

/-- A positive charge with the smallest magnitude typable into the ten
character input buffer, .000000001 = 1e-9. -/
noncomputable def chargeTiny : Charge := ⟨(0, 0, 0), 1 / 1000000000⟩

/-- A unit positive charge placed exactly at the seed point of chargeW
with resolution 1, t = 1, p = 0. -/
noncomputable def chargeCoin : Charge := ⟨(Real.sqrt 3 / 20, 0, 1 / 20), 1⟩

lemma seedPoint_tiny : seedPoint chargeTiny 2 3 0 = ((1 : ℝ) / 10, 0, 0) := by
  unfold seedPoint chargeTiny
  dsimp only
  rw [show Real.pi * ((3 : ℕ) : ℝ) / (3 * ((2 : ℕ) : ℝ)) = Real.pi / 2 by
      push_cast; ring,
    show 2 * Real.pi * ((0 : ℕ) : ℝ) / (4 * ((2 : ℕ) : ℝ)) = 0 by norm_num,
    Real.sin_pi_div_two, Real.cos_pi_div_two, Real.sin_zero, Real.cos_zero]
  norm_num

lemma seedPoint_coin : seedPoint chargeW 1 1 0 = (Real.sqrt 3 / 20, 0, 1 / 20) := by
  unfold seedPoint chargeW
  dsimp only
  rw [show Real.pi * ((1 : ℕ) : ℝ) / (3 * ((1 : ℕ) : ℝ)) = Real.pi / 3 by
      push_cast; ring,
    show 2 * Real.pi * ((0 : ℕ) : ℝ) / (4 * ((1 : ℕ) : ℝ)) = 0 by norm_num,
    Real.sin_pi_div_three, Real.cos_pi_div_three, Real.sin_zero, Real.cos_zero]
  norm_num
  ring

lemma trace_tiny_vanish :
    traceFrom [chargeTiny] 3000 0 ((1 : ℝ) / 10, 0, 0) =
      ⟨[], [((1 : ℝ) / 10, 0, 0)], .vanished⟩ := by
  have hsub : (((1 : ℝ) / 10, (0 : ℝ), (0 : ℝ)) : V3) - chargeTiny.position =
      ((1 : ℝ) / 10, 0, 0) := by
    show _ - (((0 : ℝ), (0 : ℝ), (0 : ℝ)) : V3) = _
    rw [Prod.mk_sub_mk, Prod.mk_sub_mk]
    norm_num
  have hnu : normSq ((((1 : ℝ) / 10, (0 : ℝ), (0 : ℝ)) : V3) - chargeTiny.position) =
      1 / 100 := by
    rw [hsub]
    norm_num [normSq]
  apply traceFrom_vanished (by norm_num)
    (hitSink_single_pos (by norm_num [chargeTiny]) _)
  rw [magSq_single_eq chargeTiny _ (by rw [hnu]; norm_num), hnu,
    show chargeTiny.value = (1 : ℝ) / 1000000000 from rfl]
  norm_num

lemma trace_visited_head (cs : List Charge) (ms : ℕ) (p : V3) (h : 0 < ms) :
    p ∈ (traceFrom cs ms 0 p).visited := by
  have h1 : ¬ ms ≤ 0 := by omega
  by_cases h2 : HitSink cs p
  · rw [traceFrom_captured h1 h2]
    simp
  by_cases h3 : normSq (fieldAt cs p) < 1e-12
  · rw [traceFrom_vanished h1 h2 h3]
    simp
  by_cases h4 : 2500 < normSq (stepPoint cs p)
  · rw [traceFrom_escaped h1 h2 h3 h4]
    simp
  · rw [traceFrom_step h1 h2 h3 h4]
    simp

/-- C3 counterexample: first, a single positive charge of magnitude 1e-9
(typable as .000000001) makes the seeded line at theta = pi/2, phi = 0
terminate field-vanished at its first step, neither escaped-boundary nor
step-budget-exhausted; second, placing a charge exactly at a seed point
of another makes that seed a visited trace point whose squared distance
to a charge is exactly 0, so the inner summation divides by a zero
distance. -/
theorem single_charge_outcome_cex :
    (traceFrom [chargeTiny] 3000 0 (seedPoint chargeTiny 2 3 0)).outcome =
      .vanished ∧
    seedPoint chargeTiny 2 3 0 ∈ seeds 2 chargeTiny ∧
    seedPoint chargeW 1 1 0 ∈ seeds 1 chargeW ∧
    chargeCoin ∈ [chargeW, chargeCoin] ∧
    normSq (seedPoint chargeW 1 1 0 - chargeCoin.position) = 0 ∧
    seedPoint chargeW 1 1 0 ∈
      (traceFrom [chargeW, chargeCoin] 3000 0 (seedPoint chargeW 1 1 0)).visited := by
  refine ⟨?_, ?_, ?_, ?_, ?_, ?_⟩
  · rw [seedPoint_tiny, trace_tiny_vanish]
  · unfold seeds
    exact List.mem_map.mpr ⟨(3, 0), by decide, rfl⟩
  · unfold seeds
    exact List.mem_map.mpr ⟨(1, 0), by decide, rfl⟩
  · simp
  · rw [seedPoint_coin]
    show normSq (_ - ((Real.sqrt 3 / 20, (0 : ℝ), (1 : ℝ) / 20) : V3)) = 0
    rw [Prod.mk_sub_mk, Prod.mk_sub_mk]
    norm_num [normSq]
  · exact trace_visited_head _ _ _ (by norm_num)

end EFS
